import Mathlib

/-!
# Verification of the plasma-core state engine

This development gives a shallow embedding, in Lean, of the state-engine
components of the `plasma-core` client and proves (or refutes) the
specified properties of those components:

* `RangeStore` (`src/services/chain/range-store.ts`): the non-overlapping
  block-range container and its `addRange` / `removeRange` operations;
* `SnapshotManager` (`src/services/chain/snapshot-manager.ts`): the head
  state pipeline (`addSnapshot` = push, sort, `removeOverlapping`,
  `mergeSnapshots`), `applyDeposit`, `merge`, `equals`, and the
  coin-selection routine `pickElements`;
* `ProofService.applyProof` (`src/services/chain/proof-service.ts`) and
  `ChainService.addTransaction` (`src/services/chain/chain-service.ts`);
* `ChainDB` (`src/services/db/interfaces/chain-db.ts`): `addBlockHeader`,
  `getLatestBlock` and the `getTypedValue` ordering key;
* `Deposit.equals` (`src/services/models/chain/deposit.ts`);
* the `EventWatcher` polling pipeline together with the `SyncDB` seen-set.

Arbitrary-precision `BN` values from `bn.js` are modelled as `Int`
(they are used as signed arbitrary-precision integers); JavaScript strings
as `String`; JavaScript array mutation is threaded functionally.  The
JavaScript engine's `Array.prototype.sort` is stable; it is modelled by a
stable insertion sort parameterised by the boolean counterpart of the
source's comparator function.
-/

/-! ## A stable sort, modelling JavaScript `Array.prototype.sort` -/

/-- Insert `a` into `l` after every element `b` with `le b a` (so that,
for a comparator-induced `le`, elements that compare equal keep their
original relative order, as JavaScript's stable sort does). -/
def sInsert (le : α → α → Bool) (a : α) : List α → List α
  | [] => [a]
  | b :: l => if le b a then b :: sInsert le a l else a :: b :: l

/-- Stable insertion sort: fold the input left-to-right into a sorted
accumulator. -/
def sSort (le : α → α → Bool) (l : List α) : List α :=
  l.foldl (fun acc x => sInsert le x acc) []

theorem sInsert_perm (le : α → α → Bool) (a : α) (l : List α) :
    (sInsert le a l).Perm (a :: l) := by
  induction l with
  | nil => simp [sInsert]
  | cons b t ih =>
    simp only [sInsert]
    by_cases h : le b a = true
    · simp only [h, if_pos rfl]
      exact ((ih.cons b).trans (List.Perm.swap a b t))
    · simp [h]

theorem sSort_perm (le : α → α → Bool) (l : List α) : (sSort le l).Perm l := by
  suffices h : ∀ acc : List α,
      (l.foldl (fun acc x => sInsert le x acc) acc).Perm (l.reverse ++ acc) by
    have h0 := h []
    rw [List.append_nil] at h0
    exact h0.trans (List.reverse_perm l)
  induction l with
  | nil => intro acc; simp
  | cons b t ih =>
    intro acc
    simp only [List.foldl_cons, List.reverse_cons, List.append_assoc]
    exact (ih (sInsert le b acc)).trans
      (List.Perm.append_left _ (by simpa using sInsert_perm le b acc))

theorem mem_sSort (le : α → α → Bool) (l : List α) (a : α) :
    a ∈ sSort le l ↔ a ∈ l :=
  (sSort_perm le l).mem_iff

theorem sInsert_pairwise (le : α → α → Bool)
    (htot : ∀ a b, le a b = true ∨ le b a = true)
    (htrans : ∀ a b c, le a b = true → le b c = true → le a c = true)
    (a : α) (l : List α) (h : l.Pairwise (fun x y => le x y = true)) :
    (sInsert le a l).Pairwise (fun x y => le x y = true) := by
  induction l with
  | nil => simp [sInsert]
  | cons b t ih =>
    rcases h with _ | ⟨hb, ht⟩
    simp only [sInsert]
    by_cases hba : le b a = true
    · simp only [hba, if_pos rfl]
      refine List.Pairwise.cons ?_ (ih ht)
      intro x hx
      rcases List.mem_cons.mp (((sInsert_perm le a t).mem_iff).mp hx) with hxa | hxt
      · subst hxa; exact hba
      · exact hb x hxt
    · rw [if_neg hba]
      have hab : le a b = true := (htot a b).resolve_right (by simpa using hba)
      refine List.Pairwise.cons ?_ (List.Pairwise.cons hb ht)
      intro x hx
      rcases List.mem_cons.mp hx with hxb | hxt
      · subst hxb; exact hab
      · exact htrans a b x hab (hb x hxt)

theorem sSort_pairwise (le : α → α → Bool)
    (htot : ∀ a b, le a b = true ∨ le b a = true)
    (htrans : ∀ a b c, le a b = true → le b c = true → le a c = true)
    (l : List α) : (sSort le l).Pairwise (fun x y => le x y = true) := by
  suffices h : ∀ acc : List α, acc.Pairwise (fun x y => le x y = true) →
      (l.foldl (fun acc x => sInsert le x acc) acc).Pairwise
        (fun x y => le x y = true) by
    exact h [] (by simp)
  induction l with
  | nil => intro acc hacc; simpa using hacc
  | cons b t ih =>
    intro acc hacc
    exact ih (sInsert le b acc) (sInsert_pairwise le htot htrans b acc hacc)

/-! ## RangeStore (`src/services/chain/range-store.ts`)

`RangeStore<T extends BlockRange>` keeps a list `ranges` of
`{ start, end, block }` records.  `removeRange` and `addRange` iterate with
JavaScript `for...of` over the array object captured when the loop starts,
while `this.ranges` is reassigned inside the loop body; the embedding
therefore folds over the captured list while threading the evolving store.
-/

namespace RangeStore

/-- A `BlockRange` entry of the store (`end` is a Lean keyword, hence
`end'`). -/
structure BRange where
  start : Int
  end' : Int
  block : Int
deriving DecidableEq, Repr

/-- One iteration of the `for...of` loop inside `removeRange`: compute the
overlap of `existing` with the removed range `[rs, re)`; skip if empty;
otherwise drop every entry whose `start` equals `existing.start`
(`!r.start.eq(existing.start)`) and push the non-overlapping left and right
remainders of `existing`. -/
def rrStep (rs re : Int) (state : List BRange) (existing : BRange) : List BRange :=
  if max existing.start rs ≥ min existing.end' re then state
  else
    state.filter (fun r => r.start ≠ existing.start)
      ++ (if existing.start < max existing.start rs then
            [{ existing with end' := max existing.start rs }] else [])
      ++ (if min existing.end' re < existing.end' then
            [{ existing with start := min existing.end' re }] else [])

/-- `sortRanges`: stable sort by `start` (comparator
`a.start.sub(b.start).toNumber()`). -/
def sortRanges (l : List BRange) : List BRange :=
  sSort (fun a b => a.start ≤ b.start) l

/-- `removeRange(range)`: iterate over the captured `this.ranges` (here the
same list as the initial store), then sort. -/
def removeRange (state : List BRange) (rs re : Int) : List BRange :=
  sortRanges ((state.foldl (rrStep rs re) state))

/-- One iteration of the `for...of` loop inside `addRange`, acting on the
pair (store, `toAdd` store).  When the overlap with `existing` is non-empty:
if `existing.block > range.block` the overlap is carved out of `toAdd`,
otherwise it is carved out of the store itself. -/
def addStep (rng : BRange) (p : List BRange × List BRange) (existing : BRange) :
    List BRange × List BRange :=
  let os := max existing.start rng.start
  let oe := min existing.end' rng.end'
  if os ≥ oe then p
  else if rng.block < existing.block then (p.1, removeRange p.2 os oe)
  else (removeRange p.1 os oe, p.2)

/-- `addRange(range)`: reject `start ≥ end`; otherwise run the loop over
the captured `this.ranges`, concatenate the surviving `toAdd` pieces and
sort. -/
def addRange (state : List BRange) (rng : BRange) : Except String (List BRange) :=
  if rng.start ≥ rng.end' then .error "Invalid range"
  else
    let p := state.foldl (addStep rng) (state, [rng])
    .ok (sortRanges (p.1 ++ p.2))

/-- Run a sequence of `addRange` calls starting from an empty store. -/
def addRangeSeq (rs : List BRange) : Except String (List BRange) :=
  rs.foldlM addRange []

/-! ### Semantic predicates for the RangeStore proofs -/

/-- Two entries overlap when their `[start, end)` intervals intersect. -/
def ovl (a b : BRange) : Prop := max a.start b.start < min a.end' b.end'

instance : DecidablePred (fun p : BRange × BRange => ovl p.1 p.2) := by
  intro p; unfold ovl; infer_instance

instance (a b : BRange) : Decidable (ovl a b) := by unfold ovl; infer_instance

/-- The container holds no two overlapping entries. -/
def Disj (l : List BRange) : Prop := l.Pairwise (fun a b => ¬ ovl a b)

/-- A well-formed (non-empty) range. -/
def validR (r : BRange) : Prop := r.start < r.end'

/-- `a`'s interval is contained in `b`'s. -/
def inside (a b : BRange) : Prop := b.start ≤ a.start ∧ a.end' ≤ b.end'

/-- `a`'s interval does not meet `[rs, re)`. -/
def avoids (a : BRange) (rs re : Int) : Prop := min a.end' re ≤ max a.start rs

theorem ovl_symm {a b : BRange} (h : ovl a b) : ovl b a := by
  unfold ovl at *; omega

theorem ovl_mono {a a' b : BRange} (h : inside a' a) (hov : ovl a' b) : ovl a b := by
  unfold inside ovl at *; omega

theorem inside_trans {a b c : BRange} (h1 : inside a b) (h2 : inside b c) :
    inside a c := by
  unfold inside at *; omega

theorem inside_refl (a : BRange) : inside a a := by unfold inside; omega

theorem notOvl_symm : Symmetric (fun a b : BRange => ¬ ovl a b) :=
  fun _ _ h hov => h (ovl_symm hov)

theorem Disj_perm {l1 l2 : List BRange} (p : l1.Perm l2) (h : Disj l1) : Disj l2 :=
  (p.pairwise_iff (fun {a b} => notOvl_symm (x := a) (y := b))).mp h

/-- In a container of valid, pairwise non-overlapping entries, two distinct
member values never share a `start`. -/
theorem start_inj {l : List BRange} (hd : Disj l) (hv : ∀ r ∈ l, validR r)
    {a b : BRange} (ha : a ∈ l) (hb : b ∈ l) (hne : a ≠ b) :
    a.start ≠ b.start := by
  intro hs
  have hrel : ¬ ovl a b := (List.Pairwise.forall notOvl_symm hd) ha hb hne
  have hva := hv a ha
  have hvb := hv b hb
  unfold validR at hva hvb
  exact hrel (by unfold ovl; omega)

/-- A valid, pairwise non-overlapping container has no duplicate entries. -/
theorem nodup_of_disj {l : List BRange} (hd : Disj l) (hv : ∀ r ∈ l, validR r) :
    l.Nodup := by
  refine List.Pairwise.imp_of_mem ?_ hd
  intro a b ha _ hov hab
  subst hab
  have := hv a ha
  unfold validR at this
  exact hov (by unfold ovl; omega)

/-- Invariant of the `removeRange` loop: folding `rrStep` over a suffix
`rest` of the captured array, starting from a store `state` that is valid
and non-overlapping, contains every unprocessed entry, and whose already
processed material avoids `[rs, re)`, yields a valid, non-overlapping store
each of whose entries lies inside some entry of `state` and avoids
`[rs, re)`. -/
theorem rrGo_spec (rs re : Int) :
    ∀ (rest state : List BRange),
      Disj state → (∀ r ∈ state, validR r) →
      rest.Nodup → (∀ e ∈ rest, e ∈ state) →
      (∀ p ∈ state, p ∉ rest → avoids p rs re) →
      Disj (List.foldl (rrStep rs re) state rest)
      ∧ (∀ p ∈ List.foldl (rrStep rs re) state rest, validR p)
      ∧ (∀ p ∈ List.foldl (rrStep rs re) state rest, ∃ o ∈ state, inside p o)
      ∧ (∀ p ∈ List.foldl (rrStep rs re) state rest, avoids p rs re) := by
  intro rest
  induction rest with
  | nil =>
    intro state hd hv _ _ hav
    exact ⟨hd, hv, fun p hp => ⟨p, hp, inside_refl p⟩, fun p hp => hav p hp (by simp)⟩
  | cons e rest ih =>
    intro state hd hv hnd hmem hav
    simp only [List.foldl_cons]
    have hnd' := List.nodup_cons.mp hnd
    have he : e ∈ state := hmem e (List.mem_cons_self e rest)
    by_cases hskip : max e.start rs ≥ min e.end' re
    · have hstep : rrStep rs re state e = state := by
        unfold rrStep; rw [if_pos hskip]
      rw [hstep]
      refine ih state hd hv hnd'.2 (fun x hx => hmem x (List.mem_cons_of_mem e hx)) ?_
      intro p hp hpr
      by_cases hpe : p = e
      · subst hpe; unfold avoids; omega
      · exact hav p hp (by simp [List.mem_cons, hpe, hpr])
    · -- the overlap of `existing = e` with `[rs, re)` is non-empty
      have hlt : max e.start rs < min e.end' re := lt_of_not_ge hskip
      have hve := hv e he
      unfold validR at hve
      -- the three segments produced by the step
      set F := state.filter (fun r => r.start ≠ e.start) with hF
      set L := (if e.start < max e.start rs then
            [{ e with end' := max e.start rs }] else []) with hL
      set R := (if min e.end' re < e.end' then
            [{ e with start := min e.end' re }] else []) with hR
      have hstep : rrStep rs re state e = F ++ (L ++ R) := by
        unfold rrStep; rw [if_neg hskip]; simp [hF, hL, hR]
      rw [hstep]
      -- membership facts for the filtered store
      have hFmem : ∀ x, x ∈ F ↔ (x ∈ state ∧ x.start ≠ e.start) := by
        intro x; simp [hF, List.mem_filter]
      have hFne : ∀ x ∈ F, x ≠ e := by
        intro x hx hxe
        exact ((hFmem x).mp hx).2 (by rw [hxe])
      have hFsub : ∀ x ∈ F, x ∈ state := fun x hx => ((hFmem x).mp hx).1
      have hmemF : ∀ x ∈ state, x ≠ e → x ∈ F := fun x hx hne =>
        (hFmem x).mpr ⟨hx, start_inj hd hv hx he hne⟩
      have hnotovl : ∀ x ∈ F, ¬ ovl x e := fun x hx =>
        (List.Pairwise.forall (fun {a b} => notOvl_symm (x := a) (y := b)) hd)
          (hFsub x hx) he (hFne x hx)
      -- the remainder segments lie inside `e`, are valid, avoid `[rs,re)`
      have hLcases : ∀ x ∈ L, x = { e with end' := max e.start rs } ∧ e.start < max e.start rs := by
        intro x hx
        rw [hL] at hx
        by_cases h : e.start < max e.start rs
        · rw [if_pos h] at hx; exact ⟨List.mem_singleton.mp hx, h⟩
        · rw [if_neg h] at hx; simp at hx
      have hRcases : ∀ x ∈ R, x = { e with start := min e.end' re } ∧ min e.end' re < e.end' := by
        intro x hx
        rw [hR] at hx
        by_cases h : min e.end' re < e.end'
        · rw [if_pos h] at hx; exact ⟨List.mem_singleton.mp hx, h⟩
        · rw [if_neg h] at hx; simp at hx
      have hLRinside : ∀ x ∈ L ++ R, inside x e := by
        intro x hx
        rcases List.mem_append.mp hx with hx | hx
        · obtain ⟨hx, hg⟩ := hLcases x hx; subst hx; unfold inside; refine ⟨by simp, by simp; omega⟩
        · obtain ⟨hx, hg⟩ := hRcases x hx; subst hx; unfold inside; refine ⟨by simp; omega, by simp⟩
      have hLRval : ∀ x ∈ L ++ R, validR x := by
        intro x hx
        rcases List.mem_append.mp hx with hx | hx
        · obtain ⟨hx, hg⟩ := hLcases x hx; subst hx; unfold validR; simp; omega
        · obtain ⟨hx, hg⟩ := hRcases x hx; subst hx; unfold validR; simp; omega
      have hLRavoid : ∀ x ∈ L ++ R, avoids x rs re := by
        intro x hx
        rcases List.mem_append.mp hx with hx | hx
        · obtain ⟨hx, _⟩ := hLcases x hx; subst hx; unfold avoids; simp; omega
        · obtain ⟨hx, _⟩ := hRcases x hx; subst hx; unfold avoids; simp
      -- the new store is valid and non-overlapping
      have hd' : Disj (F ++ (L ++ R)) := by
        refine List.pairwise_append.mpr ⟨hd.sublist (List.filter_sublist state), ?_, ?_⟩
        · refine List.pairwise_append.mpr ⟨?_, ?_, ?_⟩
          · rw [hL]; split <;> simp
          · rw [hR]; split <;> simp
          · intro x hx y hy hov
            obtain ⟨hx, hgx⟩ := hLcases x hx
            obtain ⟨hy, hgy⟩ := hRcases y hy
            subst hx; subst hy
            unfold ovl at hov; simp at hov; omega
        · intro x hx y hy hov
          have hxe := hnotovl x hx
          have hyin := hLRinside y hy
          apply hxe
          unfold ovl inside at *
          omega
      have hv' : ∀ r ∈ F ++ (L ++ R), validR r := by
        intro r hr
        rcases List.mem_append.mp hr with hr | hr
        · exact hv r (hFsub r hr)
        · exact hLRval r hr
      -- every unprocessed entry survives the filter
      have hmem' : ∀ x ∈ rest, x ∈ F ++ (L ++ R) := by
        intro x hx
        have hxs : x ∈ state := hmem x (List.mem_cons_of_mem e hx)
        have hxe : x ≠ e := fun h => hnd'.1 (h ▸ hx)
        exact List.mem_append.mpr (Or.inl (hmemF x hxs hxe))
      -- already processed material avoids the removed interval
      have hav' : ∀ p ∈ F ++ (L ++ R), p ∉ rest → avoids p rs re := by
        intro p hp hpr
        rcases List.mem_append.mp hp with hp | hp
        · by_cases hpe : p = e
          · subst hpe; exact absurd rfl (hFne p hp)
          · exact hav p (hFsub p hp) (by simp [List.mem_cons, hpe, hpr])
        · exact hLRavoid p hp
      obtain ⟨ihd, ihv, ihp, iha⟩ :=
        ih (F ++ (L ++ R)) hd' hv' hnd'.2 hmem' hav'
      refine ⟨ihd, ihv, ?_, iha⟩
      intro p hp
      obtain ⟨o, ho, hino⟩ := ihp p hp
      rcases List.mem_append.mp ho with ho | ho
      · exact ⟨o, hFsub o ho, hino⟩
      · exact ⟨e, he, inside_trans hino (by
          have := hLRinside o ho; exact this)⟩

/-- Specification of `removeRange` on a valid non-overlapping store: the
result is valid and non-overlapping, every surviving piece lies inside an
original entry, and no surviving piece meets the removed interval. -/
theorem removeRange_spec (state : List BRange) (rs re : Int)
    (hd : Disj state) (hv : ∀ r ∈ state, validR r) :
    Disj (removeRange state rs re)
    ∧ (∀ p ∈ removeRange state rs re, validR p)
    ∧ (∀ p ∈ removeRange state rs re, ∃ o ∈ state, inside p o)
    ∧ (∀ p ∈ removeRange state rs re, avoids p rs re) := by
  have hnd := nodup_of_disj hd hv
  obtain ⟨h1, h2, h3, h4⟩ :=
    rrGo_spec rs re state state hd hv hnd (fun e he => he)
      (fun p hp hnp => absurd hp hnp)
  have hperm := sSort_perm (fun a b : BRange => a.start ≤ b.start)
    (List.foldl (rrStep rs re) state state)
  unfold removeRange sortRanges
  refine ⟨Disj_perm hperm.symm h1, ?_, ?_, ?_⟩
  · intro p hp; exact h2 p (hperm.mem_iff.mp hp)
  · intro p hp; exact h3 p (hperm.mem_iff.mp hp)
  · intro p hp; exact h4 p (hperm.mem_iff.mp hp)

/-- Invariant of the `addRange` loop: folding `addStep` over a suffix
`rest` of the captured array, with a store `st` and a `toAdd` store `ta`
that are each valid and non-overlapping, where every `toAdd` piece lies
inside the new range and every overlap between a `toAdd` piece and a store
entry is accounted for by an unprocessed entry containing the store entry,
yields stores that are valid, non-overlapping, and mutually
non-overlapping. -/
theorem addGo_spec (rng : BRange) :
    ∀ (rest st ta : List BRange),
      Disj st → (∀ r ∈ st, validR r) →
      Disj ta → (∀ t ∈ ta, validR t) →
      (∀ t ∈ ta, inside t rng) →
      (∀ t ∈ ta, ∀ s ∈ st, ovl t s → ∃ e ∈ rest, inside s e) →
      Disj (List.foldl (addStep rng) (st, ta) rest).1
      ∧ (∀ r ∈ (List.foldl (addStep rng) (st, ta) rest).1, validR r)
      ∧ Disj (List.foldl (addStep rng) (st, ta) rest).2
      ∧ (∀ t ∈ (List.foldl (addStep rng) (st, ta) rest).2, validR t)
      ∧ (∀ t ∈ (List.foldl (addStep rng) (st, ta) rest).2, inside t rng)
      ∧ (∀ t ∈ (List.foldl (addStep rng) (st, ta) rest).2,
          ∀ s ∈ (List.foldl (addStep rng) (st, ta) rest).1, ¬ ovl t s) := by
  intro rest
  induction rest with
  | nil =>
    intro st ta hds hvs hdt hvt hins hcross
    refine ⟨hds, hvs, hdt, hvt, hins, ?_⟩
    intro t ht s hs hov
    obtain ⟨e, he, _⟩ := hcross t ht s hs hov
    exact absurd he (List.not_mem_nil e)
  | cons e rest ih =>
    intro st ta hds hvs hdt hvt hins hcross
    simp only [List.foldl_cons]
    by_cases hskip : max e.start rng.start ≥ min e.end' rng.end'
    · have hstep : addStep rng (st, ta) e = (st, ta) := by
        unfold addStep; rw [if_pos hskip]
      rw [hstep]
      refine ih st ta hds hvs hdt hvt hins ?_
      intro t ht s hs hov
      obtain ⟨e', he', hse'⟩ := hcross t ht s hs hov
      rcases List.mem_cons.mp he' with he' | he'
      · subst he'
        exfalso
        have h1 := hins t ht
        unfold ovl inside at *
        omega
      · exact ⟨e', he', hse'⟩
    · by_cases hblk : rng.block < e.block
      · -- the existing entry wins: carve the overlap out of `toAdd`
        have hstep : addStep rng (st, ta) e =
            (st, removeRange ta (max e.start rng.start) (min e.end' rng.end')) := by
          unfold addStep; rw [if_neg hskip, if_pos hblk]
        rw [hstep]
        obtain ⟨hdt', hvt', hprov', havoid'⟩ :=
          removeRange_spec ta (max e.start rng.start) (min e.end' rng.end') hdt hvt
        refine ih st _ hds hvs hdt' hvt' ?_ ?_
        · intro t' ht'
          obtain ⟨t, ht, hin⟩ := hprov' t' ht'
          exact inside_trans hin (hins t ht)
        · intro t' ht' s hs hov
          obtain ⟨t, ht, hin⟩ := hprov' t' ht'
          obtain ⟨e', he', hse'⟩ := hcross t ht s hs (ovl_mono hin hov)
          rcases List.mem_cons.mp he' with he' | he'
          · subst he'
            exfalso
            have h1 := hprov' t' ht'
            have h2 := havoid' t' ht'
            have h3 : inside t' rng := by
              obtain ⟨t0, ht0, hin0⟩ := h1
              exact inside_trans hin0 (hins t0 ht0)
            unfold ovl inside avoids at *
            omega
          · exact ⟨e', he', hse'⟩
      · -- the new range wins: carve the overlap out of the store
        have hstep : addStep rng (st, ta) e =
            (removeRange st (max e.start rng.start) (min e.end' rng.end'), ta) := by
          unfold addStep; rw [if_neg hskip, if_neg hblk]
        rw [hstep]
        obtain ⟨hds', hvs', hprov', havoid'⟩ :=
          removeRange_spec st (max e.start rng.start) (min e.end' rng.end') hds hvs
        refine ih _ ta hds' hvs' hdt hvt hins ?_
        intro t ht s' hs' hov
        obtain ⟨s, hs, hin⟩ := hprov' s' hs'
        obtain ⟨e', he', hse'⟩ := hcross t ht s hs
          (ovl_symm (ovl_mono hin (ovl_symm hov)))
        rcases List.mem_cons.mp he' with he' | he'
        · subst he'
          exfalso
          have h2 := havoid' s' hs'
          have h3 := hins t ht
          have h4 := inside_trans hin hse'
          unfold ovl inside avoids at *
          omega
        · exact ⟨e', he', inside_trans hin hse'⟩


/-- A successful `addRange` call on a valid, non-overlapping store yields a
valid, non-overlapping store. -/
theorem addRange_spec {state : List BRange} {rng : BRange} {out : List BRange}
    (hd : Disj state) (hv : ∀ r ∈ state, validR r)
    (h : addRange state rng = .ok out) :
    Disj out ∧ ∀ r ∈ out, validR r := by
  unfold addRange at h
  by_cases hg : rng.start ≥ rng.end'
  · rw [if_pos hg] at h; exact absurd h (by simp)
  · rw [if_neg hg] at h
    simp only [Except.ok.injEq] at h
    subst h
    obtain ⟨hds, hvs, hdt, hvt, _, hcross⟩ :=
      addGo_spec rng state state [rng] hd hv
        (List.pairwise_singleton _ rng) (by
          intro t ht
          rw [List.mem_singleton.mp ht]
          unfold validR; omega)
        (by
          intro t ht
          rw [List.mem_singleton.mp ht]
          exact inside_refl rng)
        (by
          intro t ht s hs _
          exact ⟨s, hs, inside_refl s⟩)
    have hperm := sSort_perm (fun a b : BRange => a.start ≤ b.start)
      ((List.foldl (addStep rng) (state, [rng]) state).1
        ++ (List.foldl (addStep rng) (state, [rng]) state).2)
    constructor
    · refine Disj_perm hperm.symm ?_
      refine List.pairwise_append.mpr ⟨hds, hdt, ?_⟩
      intro s hs t ht hov
      exact hcross t ht s hs (ovl_symm hov)
    · intro r hr
      rcases List.mem_append.mp (hperm.mem_iff.mp hr) with hr | hr
      · exact hvs r hr
      · exact hvt r hr

/-- Folding a sequence of `addRange` calls preserves validity and
non-overlap, and never fails when every added range is well-formed. -/
theorem addRangeSeq_aux :
    ∀ (rs : List BRange) (init : List BRange),
      Disj init → (∀ r ∈ init, validR r) →
      (∀ st, List.foldlM addRange init rs = .ok st →
        Disj st ∧ ∀ r ∈ st, validR r)
      ∧ ((∀ r ∈ rs, validR r) → ∃ st, List.foldlM addRange init rs = .ok st) := by
  intro rs
  induction rs with
  | nil =>
    intro init hd hv
    refine ⟨?_, fun _ => ⟨init, rfl⟩⟩
    intro st h
    simp only [List.foldlM_nil] at h
    cases (Except.ok.inj h)
    exact ⟨hd, hv⟩
  | cons r rs ih =>
    intro init hd hv
    constructor
    · intro st h
      simp only [List.foldlM_cons] at h
      cases h1 : addRange init r with
      | error err =>
        rw [h1] at h
        simp [Bind.bind, Except.bind] at h
      | ok st1 =>
        rw [h1] at h
        simp only [Bind.bind, Except.bind] at h
        obtain ⟨hd1, hv1⟩ := addRange_spec hd hv h1
        exact ((ih st1 hd1 hv1).1) st h
    · intro hval
      have hr : validR r := hval r (List.mem_cons_self r rs)
      have h1 : addRange init r = .ok (sortRanges
          ((List.foldl (addStep r) (init, [r]) init).1
            ++ (List.foldl (addStep r) (init, [r]) init).2)) := by
        unfold addRange
        rw [if_neg (by unfold validR at hr; omega)]
      obtain ⟨hd1, hv1⟩ := addRange_spec hd hv h1
      obtain ⟨st, hst⟩ := ((ih _ hd1 hv1).2) (fun x hx => hval x (List.mem_cons_of_mem r hx))
      refine ⟨st, ?_⟩
      simp only [List.foldlM_cons, h1, Bind.bind, Except.bind]
      exact hst

/-- **C2.** For every sequence of `RangeStore.addRange` operations, each
adding a range with `start < end`, the sequence succeeds and the resulting
container has no two entries whose `[start, end)` intervals overlap. -/
theorem addRange_sequence_no_overlap (rs : List BRange)
    (hval : ∀ r ∈ rs, r.start < r.end') :
    ∃ st, addRangeSeq rs = Except.ok st
      ∧ st.Pairwise (fun a b => ¬ ovl a b) := by
  obtain ⟨hok, htot⟩ := addRangeSeq_aux rs [] (by simp [Disj]) (by simp)
  obtain ⟨st, hst⟩ := htot hval
  exact ⟨st, hst, (hok st hst).1⟩

/-- **C2 witness.** A concrete two-element run of `addRange`. -/
theorem addRange_sequence_no_overlap_witness :
    ∃ st, addRangeSeq [⟨0, 10, 5⟩, ⟨5, 15, 6⟩] = Except.ok st
      ∧ st.Pairwise (fun a b => ¬ ovl a b) :=
  addRange_sequence_no_overlap [⟨0, 10, 5⟩, ⟨5, 15, 6⟩] (by decide)

/-- **C3.** Behaviour of `addRange` at a block-number tie, evaluated on a
concrete store.  The store holds `e = [0,10) @ block 5`; adding
`r = [5,15) @ block 5` carves the overlapping slice `[5,10)` out of `e`
(leaving `[0,5)`) and inserts `r` whole: at equal block numbers the *new*
range supersedes the existing entry, because the code only spares the
existing entry when `existing.block.gt(range.block)` holds strictly.  The
claim, and the documentation comment on the `RangeStore` class ("only the
sections with a higher block number than existing ranges that they overlap
with will be inserted"), say the opposite: `e` should have been left
intact and the slice of `r` dropped. -/
theorem addRange_tie_new_range_supersedes :
    addRangeSeq [⟨0, 10, 5⟩, ⟨5, 15, 5⟩] =
        .ok [⟨0, 5, 5⟩, ⟨5, 15, 5⟩]
      ∧ (⟨0, 10, 5⟩ : BRange) ∉ [(⟨0, 5, 5⟩ : BRange), ⟨5, 15, 5⟩] :=
  ⟨rfl, by decide⟩

end RangeStore

/-! ## SnapshotManager (`src/services/chain/snapshot-manager.ts`)

The head state is a list of `Snapshot { start, end, block, owner }`
records.  `addSnapshot` pushes the new snapshot, sorts by `start`, runs
`removeOverlapping` (which itself re-sorts by `(start, end)`), then
`mergeSnapshots`.  `applyDeposit` converts a `Deposit` via
`Snapshot.from` and calls `addSnapshot`; `merge` adds every snapshot of
the other manager's state, swallowing errors. -/

namespace SnapshotMgr

/-- `Snapshot` (`src/services/models/chain/snapshot.ts`). -/
structure Snapshot where
  start : Int
  end' : Int
  block : Int
  owner : String
deriving DecidableEq, Repr

/-- `Snapshot.valid`: `start < end && block >= 0`. -/
def Snapshot.valid (s : Snapshot) : Prop := s.start < s.end' ∧ 0 ≤ s.block

instance (s : Snapshot) : Decidable s.valid := by unfold Snapshot.valid; infer_instance

/-- Two snapshots overlap when their `[start, end)` intervals intersect
(`bnMax(a.start, b.start).lt(bnMin(a.end, b.end))`). -/
def ovlS (a b : Snapshot) : Prop := max a.start b.start < min a.end' b.end'

instance (a b : Snapshot) : Decidable (ovlS a b) := by unfold ovlS; infer_instance

/-- The sort in `addSnapshot`: stable, by `start` only. -/
def sortByStart (l : List Snapshot) : List Snapshot :=
  sSort (fun a b => a.start ≤ b.start) l

/-- The sort at the top of `removeOverlapping`: stable, by `start`, ties
by `end`. -/
def sortByStartEnd (l : List Snapshot) : List Snapshot :=
  sSort (fun a b => if a.start = b.start then a.end' ≤ b.end' else a.start ≤ b.start) l

/-- The inner loop of `removeOverlapping`, processing the (pre-computed)
list `ov` of earlier entries that the current snapshot `A` was found to
overlap.  When `A.block ≥ B.block`, `B` is removed (`equals`-filter), its
non-overlapping left and right portions are pushed back, and the
overlapping part of `A` is pushed; if `A` extends past `B`'s end the scan
continues with the remainder of `A`, otherwise it stops and `A` is
consumed (`remainder = false`). Returns the updated accumulator and the
remainder of `A` still to be pushed, if any. -/
def roProcess (reduced : List Snapshot) (A : Snapshot) :
    List Snapshot → List Snapshot × Option Snapshot
  | [] => (reduced, some A)
  | B :: rest =>
    let reduced' :=
      if B.block ≤ A.block then
        (reduced.filter (fun el => el ≠ B))
          ++ (if B.start < A.start then [{ B with end' := A.start }] else [])
          ++ (if A.end' < B.end' then [{ B with start := A.end' }] else [])
          ++ [{ A with end' := min A.end' B.end' }]
      else reduced
    if B.end' < A.end' then roProcess reduced' { A with start := B.end' } rest
    else (reduced', none)

/-- The outer loop of `removeOverlapping`: for each snapshot (in sorted
order), collect the accumulated entries whose `end` lies beyond its
`start`, break them up via `roProcess`, and push any remainder. -/
def roFold (reduced : List Snapshot) : List Snapshot → List Snapshot
  | [] => reduced
  | A :: rest =>
    let ov := reduced.filter (fun B => A.start < B.end')
    let pr := roProcess reduced A ov
    roFold (pr.1 ++ pr.2.toList) rest

/-- `removeOverlapping`: sort by `(start, end)`, then reduce. -/
def removeOverlapping (snaps : List Snapshot) : List Snapshot :=
  roFold [] (sortByStartEnd snaps)

/-- The last index of `l` satisfying `p` (the JavaScript `forEach` keeps
overwriting `left`/`right`, so the last match wins). -/
def lastIdxWhere (l : List Snapshot) (p : Snapshot → Bool) : Option Nat :=
  (l.foldl (fun (acc : Option Nat × Nat) s =>
    (if p s then some acc.2 else acc.1, acc.2 + 1)) (none, 0)).1

/-- Overwrite the `end` of the `i`-th accumulated snapshot. -/
def setEndAt (l : List Snapshot) (i : Nat) (v : Int) : List Snapshot :=
  match l.get? i with
  | some s => l.set i { s with end' := v }
  | none => l

/-- Overwrite the `start` of the `i`-th accumulated snapshot. -/
def setStartAt (l : List Snapshot) (i : Nat) (v : Int) : List Snapshot :=
  match l.get? i with
  | some s => l.set i { s with start := v }
  | none => l

/-- One step of `mergeSnapshots`: find the last accumulated snapshot with
the same `block` and `owner` whose `end` equals the new snapshot's `start`
(`left`) and the last one whose `start` equals the new snapshot's `end`
(`right`); extend `left` and/or `right` accordingly, pushing the new
snapshot only when neither exists. -/
def msStep (merged : List Snapshot) (snapshot : Snapshot) : List Snapshot :=
  let left := lastIdxWhere merged (fun s =>
    s.block = snapshot.block && s.owner = snapshot.owner && s.end' = snapshot.start)
  let right := lastIdxWhere merged (fun s =>
    s.block = snapshot.block && s.owner = snapshot.owner && s.start = snapshot.end')
  let m1 := match left with
    | some i => setEndAt merged i snapshot.end'
    | none => merged
  let m2 := match right with
    | some i => setStartAt m1 i snapshot.start
    | none => m1
  match left, right with
  | none, none => merged ++ [snapshot]
  | _, _ => m2

/-- `mergeSnapshots`: fold `msStep` over the reduced list. -/
def mergeSnapshots (snaps : List Snapshot) : List Snapshot :=
  snaps.foldl msStep []

/-- `addSnapshot`: reject invalid snapshots; otherwise push, sort by
`start`, remove overlaps, and merge. -/
def addSnapshot (state : List Snapshot) (s : Snapshot) :
    Except String (List Snapshot) :=
  if s.valid then
    .ok (mergeSnapshots (removeOverlapping (sortByStart (state ++ [s]))))
  else .error "Invalid snapshot"

/-- `SnapshotManager.merge(other)`: add every snapshot of the other
manager's state, swallowing per-snapshot errors. -/
def mergeSM (state other : List Snapshot) : List Snapshot :=
  other.foldl (fun st snap =>
    match addSnapshot st snap with
    | .ok st' => st'
    | .error _ => st) state

end SnapshotMgr

/-! ## Deposit (`src/services/models/chain/deposit.ts`) -/

namespace Models

/-- `Deposit`: owner, token, start, end, block. -/
structure Deposit where
  owner : String
  token : Int
  start : Int
  end' : Int
  block : Int
deriving DecidableEq, Repr

/-- `Deposit.equals`, exactly as written in the source: note that the
third conjunct compares `this.start` with `other.token`. -/
def Deposit.equals (d other : Deposit) : Bool :=
  d.owner = other.owner
    && d.token = other.token
    && d.start = other.token
    && d.end' = other.end'
    && d.block = other.block

/-- `Snapshot.fromDeposit` (`snapshot.ts`): keep `start`, `end`, `block`,
`owner`. -/
def Snapshot.fromDeposit (d : Deposit) : SnapshotMgr.Snapshot :=
  ⟨d.start, d.end', d.block, d.owner⟩

end Models

namespace SnapshotMgr

/-- `SnapshotManager.applyDeposit`: `addSnapshot(Snapshot.from(deposit))`. -/
def applyDeposit (state : List Snapshot) (d : Models.Deposit) :
    Except String (List Snapshot) :=
  addSnapshot state (Models.Snapshot.fromDeposit d)

/-- A fresh manager to which a sequence of deposits is applied. -/
def runDeposits (ds : List Models.Deposit) : Except String (List Snapshot) :=
  ds.foldlM applyDeposit []

end SnapshotMgr

namespace SnapshotMgr

/-- **C1.** Head-state overlap after three valid deposits, evaluated on
the embedded pipeline.  Applying the valid deposits `[0,1)`, `[0,3)` and
`[1,2)` (all at block 0, same owner) to a fresh `SnapshotManager` leaves
head state `{[0,2), [1,3)}`, whose two snapshots overlap on `[1,2)`:
`removeOverlapping` returns the disjoint pieces in the order
`[0,1), [2,3), [1,2)`, and `mergeSnapshots` then merges the gap-filling
snapshot `[1,2)` into *both* its left neighbour (extending `[0,1)` to
`[0,2)`) and its right neighbour (extending `[2,3)` to `[1,3)`), creating
an overlap.  This refutes the claimed invariant that after every public
operation the head state contains no two overlapping snapshots. -/
theorem snapshotManager_overlap_after_deposits :
    runDeposits [⟨"a", 0, 0, 1, 0⟩, ⟨"a", 0, 0, 3, 0⟩, ⟨"a", 0, 1, 2, 0⟩]
        = .ok [⟨0, 2, 0, "a"⟩, ⟨1, 3, 0, "a"⟩]
      ∧ (∀ d ∈ [Models.Deposit.mk "a" 0 0 1 0, ⟨"a", 0, 0, 3, 0⟩, ⟨"a", 0, 1, 2, 0⟩],
          (Models.Snapshot.fromDeposit d).valid)
      ∧ ovlS ⟨0, 2, 0, "a"⟩ ⟨1, 3, 0, "a"⟩ :=
  ⟨rfl, by decide, by decide⟩

/-- `Snapshot.equals`: pointwise on `start`, `end`, `block`, `owner`. -/
def Snapshot.equals (a b : Snapshot) : Bool :=
  a.start = b.start && a.end' = b.end' && a.block = b.block && a.owner = b.owner

/-- `SnapshotManager.equals(snapshots)`: walk the argument list by index,
reading `this.snapshots[i]`; reading past the end of `this.snapshots`
dereferences `undefined` and raises a `TypeError`, modelled as an
exception. The loop never compares the lengths of the two lists. -/
def smEquals : List Snapshot → List Snapshot → Except String Bool
  | _, [] => .ok true
  | [], _ :: _ => .error "TypeError"
  | m :: ms, o :: os => if Snapshot.equals m o then smEquals ms os else .ok false

/-- **C10.** `SnapshotManager.equals` compares only index-by-index over
the argument list: `M.equals([])` is `true` for *every* manager state
(lengths are never compared), and whenever the argument list is no longer
than the manager's state and each of the first `|L|` snapshots of the
manager equals the corresponding element of `L`, `equals` returns
`true`. -/
theorem smEquals_spec :
    (∀ mine : List Snapshot, smEquals mine [] = .ok true)
    ∧ (∀ mine others : List Snapshot, (hlen : others.length ≤ mine.length) →
        (∀ i, (hi : i < others.length) →
          Snapshot.equals (mine.get ⟨i, lt_of_lt_of_le hi hlen⟩)
            (others.get ⟨i, hi⟩) = true) →
        smEquals mine others = .ok true) := by
  constructor
  · intro mine; cases mine <;> rfl
  · intro mine others
    induction others generalizing mine with
    | nil => intro _ _; cases mine <;> rfl
    | cons o os ih =>
      intro hlen hpt
      cases mine with
      | nil => simp at hlen
      | cons m ms =>
        have h0 := hpt 0 (by simp)
        simp only [List.get] at h0
        simp only [smEquals, h0, if_pos rfl]
        exact ih ms (by simpa using hlen) (fun i hi => by
          have := hpt (i + 1) (by simpa using hi)
          simpa [List.get] using this)

/-- **C10 witness.** A manager with two snapshots compared against its
own one-element prefix, and against the empty list. -/
theorem smEquals_spec_witness :
    smEquals [⟨0, 1, 2, "a"⟩, ⟨3, 4, 5, "b"⟩] [⟨0, 1, 2, "a"⟩] = .ok true
    ∧ smEquals [⟨0, 1, 2, "a"⟩, ⟨3, 4, 5, "b"⟩] [] = .ok true :=
  ⟨smEquals_spec.2 [⟨0, 1, 2, "a"⟩, ⟨3, 4, 5, "b"⟩] [⟨0, 1, 2, "a"⟩]
      (by decide) (by decide),
    smEquals_spec.1 [⟨0, 1, 2, "a"⟩, ⟨3, 4, 5, "b"⟩]⟩

end SnapshotMgr

/-- **C6.** `Deposit.equals` evaluated at a pair of pointwise-equal
deposits whose `start` differs from their `token`: the source compares
`this.start` with `other.token`, so a deposit does not even equal itself.
This refutes "`d1.equals(d2)` returns true iff `d1` and `d2` agree
pointwise on owner, token, start, end and block" on the code; the claim
(and the specification, which flags this line of the source as a bug)
state the intended behaviour. -/
theorem deposit_equals_not_pointwise :
    Models.Deposit.equals ⟨"a", 1, 2, 3, 4⟩ ⟨"a", 1, 2, 3, 4⟩ = false := by
  decide

/-! ## ChainDB (`src/services/db/interfaces/chain-db.ts`)

The `latestblock` and `header:{block}` key namespaces of the chain store,
and the `getTypedValue` ordering key. -/

namespace ChainDB

/-- A `Block` commitment: `{ number, hash }`. -/
structure Block where
  number : Int
  hash : String
deriving DecidableEq, Repr

/-- The chain store's state restricted to the namespaces touched by
block-header writes: the `latestblock` key and the `header:{block}`
mapping (an association list keyed by block number). -/
structure DBState where
  latestblock : Option Int
  headers : List (Int × String)
deriving DecidableEq, Repr

/-- A freshly opened store: no keys present. -/
def DBState.init : DBState := ⟨none, []⟩

/-- `db.set('header:{block}', hash)` / one entry of `bulkPut`. -/
def setHeader (db : DBState) (block : Int) (hash : String) : DBState :=
  { db with headers := (block, hash) :: db.headers.filter (fun p => p.1 ≠ block) }

/-- `setLatestBlock(block)`: `db.set('latestblock', block)` — an
unconditional overwrite. -/
def setLatestBlock (db : DBState) (block : Int) : DBState :=
  { db with latestblock := some block }

/-- `getLatestBlock()`: `db.get('latestblock', -1)`. -/
def getLatestBlock (db : DBState) : Int :=
  db.latestblock.getD (-1)

/-- `addBlockHeader(block, hash)`: `setLatestBlock(block)` then store the
header. -/
def addBlockHeader (db : DBState) (block : Int) (hash : String) : DBState :=
  setHeader (setLatestBlock db block) block hash

/-- `addBlockHeaders(blocks)`: `reduce` the batch to the block with the
largest number (`a.number > b.number ? a : b`; JavaScript `reduce` with no
initial value throws on an empty array), `setLatestBlock` to it, then
`bulkPut` all headers. -/
def addBlockHeaders (db : DBState) (blocks : List Block) :
    Except String DBState :=
  match blocks with
  | [] => .error "Reduce of empty array with no initial value"
  | b :: bs =>
    let latest := bs.foldl (fun a c => if a.number > c.number then a else c) b
    let db := setLatestBlock db latest.number
    .ok (blocks.foldl (fun d blk => setHeader d blk.number blk.hash) db)

/-- **C5.** `getLatestBlock` after out-of-order `addBlockHeader` calls,
evaluated concretely: after `addBlockHeader(5, "a")` the stored latest
block is `5`, but a subsequent `addBlockHeader(3, "b")` overwrites it
with `3`, even though the maximum block number passed in the sequence is
`5`.  `setLatestBlock` writes unconditionally — there is no
compare-before-write, so the stored value is neither the running maximum
nor monotonic.  (An earlier JavaScript revision of this code guarded the
write with `if (block > latest)` under a `latestblock` lock, which is
the behaviour the claim describes.) -/
theorem chainDB_latestblock_not_monotonic :
    getLatestBlock (addBlockHeader DBState.init 5 "a") = 5
    ∧ getLatestBlock (addBlockHeader (addBlockHeader DBState.init 5 "a") 3 "b") = 3
    ∧ max 5 3 = (5 : Int) := by
  decide

end ChainDB

namespace ChainDB

/-- Big-endian hexadecimal digit expansion, fuel-based so that it reduces
definitionally (`bn.js` `toString('hex')` of a non-negative integer; the
value `0` prints as the single digit `"0"`). -/
def hexDigitsGo : Nat → Nat → List Nat
  | 0, n => [n % 16]
  | fuel + 1, n => if n < 16 then [n] else hexDigitsGo fuel (n / 16) ++ [n % 16]

/-- The hexadecimal digits of `n`, most significant first. -/
def hexDigits (n : Nat) : List Nat := hexDigitsGo n n

theorem hexDigitsGo_eq_of_lt :
    ∀ (f : Nat) (g n : Nat), n < 16 ^ f → n < 16 ^ g →
      hexDigitsGo f n = hexDigitsGo g n := by
  intro f
  induction f with
  | zero =>
    intro g n hf hg
    interval_cases n
    cases g with
    | zero => rfl
    | succ g => simp [hexDigitsGo]
  | succ f ih =>
    intro g n hf hg
    by_cases hn : n < 16
    · cases g with
      | zero =>
        have : n = 0 := by simpa using hg
        subst this
        simp [hexDigitsGo]
      | succ g => simp [hexDigitsGo, hn]
    · cases g with
      | zero =>
        exfalso
        have : n = 0 := by simpa using hg
        omega
      | succ g =>
        simp only [hexDigitsGo, if_neg hn]
        have hdf : n / 16 < 16 ^ f := by
          rw [Nat.div_lt_iff_lt_mul (by norm_num)]
          calc n < 16 ^ (f + 1) := hf
          _ = 16 ^ f * 16 := by ring
        have hdg : n / 16 < 16 ^ g := by
          rw [Nat.div_lt_iff_lt_mul (by norm_num)]
          calc n < 16 ^ (g + 1) := hg
          _ = 16 ^ g * 16 := by ring
        rw [ih g (n / 16) hdf hdg]

theorem hexDigits_of_lt {n : Nat} (h : n < 16) : hexDigits n = [n] := by
  unfold hexDigits
  cases n with
  | zero => rfl
  | succ m => simp [hexDigitsGo, h]

theorem hexDigits_of_ge {n : Nat} (h : 16 ≤ n) :
    hexDigits n = hexDigits (n / 16) ++ [n % 16] := by
  unfold hexDigits
  obtain ⟨m, rfl⟩ : ∃ m, n = m + 1 := ⟨n - 1, by omega⟩
  simp only [hexDigitsGo]
  rw [if_neg (show ¬ (m + 1 < 16) by omega)]
  have h1 : (m + 1) / 16 < 16 ^ m := by
    rw [Nat.div_lt_iff_lt_mul (by norm_num)]
    calc m + 1 < 16 ^ (m + 1) := Nat.lt_pow_self (by norm_num) (m + 1)
    _ = 16 ^ m * 16 := by ring
  have h2 : (m + 1) / 16 < 16 ^ ((m + 1) / 16) :=
    Nat.lt_pow_self (by norm_num) _
  rw [hexDigitsGo_eq_of_lt m ((m + 1) / 16) ((m + 1) / 16) h1 h2]

theorem hexDigits_length_pos (n : Nat) : 1 ≤ (hexDigits n).length := by
  by_cases h : n < 16
  · rw [hexDigits_of_lt h]; simp
  · rw [hexDigits_of_ge (by omega)]; simp

theorem hexDigits_digit_lt (n : Nat) : ∀ d ∈ hexDigits n, d < 16 := by
  induction n using Nat.strong_induction_on with
  | _ n ih =>
    by_cases h : n < 16
    · rw [hexDigits_of_lt h]; simpa using h
    · rw [hexDigits_of_ge (by omega)]
      intro d hd
      rcases List.mem_append.mp hd with hd | hd
      · exact ih (n / 16) (by omega) d hd
      · rw [List.mem_singleton.mp hd]; omega

theorem hexDigits_length_le {n k : Nat} (hk : 1 ≤ k) (h : n < 16 ^ k) :
    (hexDigits n).length ≤ k := by
  induction n using Nat.strong_induction_on generalizing k with
  | _ n ih =>
    by_cases hn : n < 16
    · rw [hexDigits_of_lt hn]; simpa using hk
    · rw [hexDigits_of_ge (by omega)]
      have hk2 : 2 ≤ k := by
        by_contra hlt
        have : k = 1 := by omega
        subst this
        simp at h
        omega
      have : n / 16 < 16 ^ (k - 1) := by
        rw [Nat.div_lt_iff_lt_mul (by norm_num)]
        calc n < 16 ^ k := h
        _ = 16 ^ (k - 1) * 16 := by
          rw [← pow_succ]
          congr 1
          omega
      have := ih (n / 16) (by omega) (k := k - 1) (by omega) this
      simp only [List.length_append, List.length_singleton]
      omega

theorem hexDigits_lt_of_length_le {n k : Nat} (h : (hexDigits n).length ≤ k) :
    n < 16 ^ k := by
  induction n using Nat.strong_induction_on generalizing k with
  | _ n ih =>
    by_cases hn : n < 16
    · rw [hexDigits_of_lt hn] at h
      simp at h
      calc n < 16 ^ 1 := by simpa using hn
      _ ≤ 16 ^ k := Nat.pow_le_pow_right (by norm_num) h
    · rw [hexDigits_of_ge (by omega)] at h
      simp only [List.length_append, List.length_singleton] at h
      have h1 : (hexDigits (n / 16)).length ≤ k - 1 := by omega
      have h2 : n / 16 < 16 ^ (k - 1) := ih (n / 16) (by omega) h1
      have hk : 1 ≤ k := by
        have := hexDigits_length_pos (n / 16)
        omega
      have h3 : n < 16 ^ (k - 1) * 16 :=
        (Nat.div_lt_iff_lt_mul (by norm_num)).mp h2
      calc n < 16 ^ (k - 1) * 16 := h3
      _ = 16 ^ k := by
        rw [← pow_succ]
        congr 1
        omega

/-- Parse a big-endian hex digit string back into a number
(`new BigNum(str, 'hex')`). -/
def fromBE (l : List Nat) : Nat := l.foldl (fun acc d => 16 * acc + d) 0

theorem fromBE_foldl (l : List Nat) :
    ∀ acc, l.foldl (fun acc d => 16 * acc + d) acc
      = acc * 16 ^ l.length + l.foldl (fun acc d => 16 * acc + d) 0 := by
  induction l with
  | nil => intro acc; simp
  | cons d t ih =>
    intro acc
    rw [List.foldl_cons, List.foldl_cons, ih (16 * acc + d), ih (16 * 0 + d)]
    simp only [List.length_cons, pow_succ]
    ring

theorem fromBE_cons (d : Nat) (t : List Nat) :
    fromBE (d :: t) = d * 16 ^ t.length + fromBE t := by
  unfold fromBE
  rw [List.foldl_cons, fromBE_foldl]
  norm_num

theorem fromBE_append (xs ys : List Nat) :
    fromBE (xs ++ ys) = fromBE xs * 16 ^ ys.length + fromBE ys := by
  unfold fromBE
  rw [List.foldl_append]
  exact fromBE_foldl ys _

theorem fromBE_replicate_zero (k : Nat) (l : List Nat) :
    fromBE (List.replicate k 0 ++ l) = fromBE l := by
  induction k with
  | zero => simp
  | succ k ih =>
    rw [List.replicate_succ, List.cons_append, fromBE_cons, ih]
    simp

theorem fromBE_hexDigits (n : Nat) : fromBE (hexDigits n) = n := by
  induction n using Nat.strong_induction_on with
  | _ n ih =>
    by_cases h : n < 16
    · rw [hexDigits_of_lt h, fromBE_cons]
      simp [fromBE]
    · rw [hexDigits_of_ge (by omega), fromBE_append, ih (n / 16) (by omega)]
      simp [fromBE]
      omega

theorem fromBE_lt (l : List Nat) (h : ∀ d ∈ l, d < 16) :
    fromBE l < 16 ^ l.length := by
  induction l with
  | nil => simp [fromBE]
  | cons d t ih =>
    rw [fromBE_cons]
    have hd : d < 16 := h d (List.mem_cons_self d t)
    have ht := ih (fun x hx => h x (List.mem_cons_of_mem d hx))
    have : d * 16 ^ t.length + fromBE t < (d + 1) * 16 ^ t.length := by nlinarith
    calc d * 16 ^ t.length + fromBE t < (d + 1) * 16 ^ t.length := this
    _ ≤ 16 * 16 ^ t.length := by
      have : d + 1 ≤ 16 := by omega
      exact Nat.mul_le_mul_right _ this
    _ = 16 ^ (d :: t).length := by
      simp [pow_succ]
      ring

/-- `bn.js` `toString('hex', len)` pads the digit string with leading
zeroes until its length is a multiple of `len`. -/
def padHex (len n : Nat) : List Nat :=
  List.replicate ((len - (hexDigits n).length % len) % len) 0 ++ hexDigits n

/-- `ChainDB.getTypedValue(token, value)`:
`new BigNum(token.toString('hex', 8) + value.toString('hex', 24),
'hex').toString('hex', 32)` — the 8-digit-padded token concatenated with
the 24-digit-padded value, re-parsed and re-printed padded to 32 digits.
The result is the hex key string, represented as its list of digit
values; two keys compare exactly as the corresponding strings do
(character order and hex-digit order agree). -/
def getTypedValue (token value : Nat) : List Nat :=
  padHex 32 (fromBE (padHex 8 token ++ padHex 24 value))

theorem padHex_length {len n : Nat} (h : (hexDigits n).length ≤ len) :
    (padHex len n).length = len := by
  unfold padHex
  have h1 := hexDigits_length_pos n
  simp only [List.length_append, List.length_replicate]
  rcases Nat.lt_or_ge (hexDigits n).length len with hlt | hge
  · rw [Nat.mod_eq_of_lt hlt, Nat.mod_eq_of_lt (by omega)]
    omega
  · have : (hexDigits n).length = len := by omega
    rw [this]
    simp

theorem padHex_fromBE (len n : Nat) : fromBE (padHex len n) = n := by
  unfold padHex
  rw [fromBE_replicate_zero, fromBE_hexDigits]

theorem padHex_digit_lt (len n : Nat) : ∀ d ∈ padHex len n, d < 16 := by
  intro d hd
  rcases List.mem_append.mp hd with hd | hd
  · rw [List.eq_of_mem_replicate hd]; omega
  · exact hexDigits_digit_lt n d hd

/-- For in-range token and value, the typed key is the 32-digit big-endian
representation of `token * 16 ^ 24 + value`. -/
theorem getTypedValue_eq {token value : Nat}
    (hv : value < 16 ^ 24) :
    getTypedValue token value = padHex 32 (token * 16 ^ 24 + value) := by
  unfold getTypedValue
  congr 1
  rw [fromBE_append, padHex_fromBE, padHex_fromBE,
    padHex_length (hexDigits_length_le (by norm_num) hv)]

/-- Lexicographic order on equal-length digit strings is numeric order. -/
theorem lex_iff_fromBE :
    ∀ xs ys : List Nat, xs.length = ys.length →
      (∀ d ∈ xs, d < 16) → (∀ d ∈ ys, d < 16) →
      (List.Lex (· < ·) xs ys ↔ fromBE xs < fromBE ys) := by
  intro xs
  induction xs with
  | nil =>
    intro ys hlen _ _
    have : ys = [] := List.eq_nil_of_length_eq_zero hlen.symm
    subst this
    constructor
    · intro h; cases h
    · intro h; simp [fromBE] at h
  | cons x xs ih =>
    intro ys hlen hx hy
    cases ys with
    | nil => simp at hlen
    | cons y ys =>
      simp only [List.length_cons, Nat.succ.injEq] at hlen
      rw [fromBE_cons, fromBE_cons, hlen]
      have hxd : x < 16 := hx x (List.mem_cons_self x xs)
      have hyd : y < 16 := hy y (List.mem_cons_self y ys)
      have hxs := fromBE_lt xs (fun d hd => hx d (List.mem_cons_of_mem x hd))
      have hys := fromBE_lt ys (fun d hd => hy d (List.mem_cons_of_mem y hd))
      rw [hlen] at hxs
      constructor
      · intro h
        have hinv : x < y ∨ (x = y ∧ List.Lex (· < ·) xs ys) := by
          cases h with
          | cons h => exact Or.inr ⟨rfl, h⟩
          | rel h => exact Or.inl h
        rcases hinv with hxy | ⟨hxy, hrec⟩
        · have hlt : (x + 1) * 16 ^ ys.length ≤ y * 16 ^ ys.length :=
            Nat.mul_le_mul_right _ (by omega)
          nlinarith
        · subst hxy
          have := (ih ys hlen (fun d hd => hx d (List.mem_cons_of_mem x hd))
            (fun d hd => hy d (List.mem_cons_of_mem x hd))).mp hrec
          omega
      · intro h
        rcases Nat.lt_trichotomy x y with hxy | hxy | hxy
        · exact List.Lex.rel hxy
        · subst hxy
          refine List.Lex.cons ?_
          refine (ih ys hlen (fun d hd => hx d (List.mem_cons_of_mem x hd))
            (fun d hd => hy d (List.mem_cons_of_mem x hd))).mpr ?_
          omega
        · exfalso
          have hlt : (y + 1) * 16 ^ ys.length ≤ x * 16 ^ ys.length :=
            Nat.mul_le_mul_right _ (by omega)
          nlinarith

/-- **C8 counterexample.** Key spaces of distinct tokens are *not*
strictly separated: the value `16 ^ 24` does not fit in its 24-digit
field, so its padded representation spills into the token prefix, and
`getTypedValue 0 (16 ^ 24)` produces exactly the same 32-digit key as
`getTypedValue 1 0` — refuting, at `t1 = 0 < 1 = t2`, `v1 = 16 ^ 24`,
`v2 = 0`, the claim that `getTypedValue t1 v1` is strictly less than
`getTypedValue t2 v2` for all values. -/
theorem getTypedValue_not_separating :
    getTypedValue 0 (16 ^ 24) = getTypedValue 1 0
    ∧ ¬ List.Lex (· < ·) (getTypedValue 0 (16 ^ 24)) (getTypedValue 1 0) := by
  constructor
  · decide
  · decide

/-- **C8 (amended).** For tokens below `16 ^ 8` and values below
`16 ^ 24` — i.e. when both fields fit in the widths `getTypedValue` pads
them to — the typed key is strictly increasing in the value for a fixed
token, and strictly separating across distinct tokens, in the
lexicographic order of the produced key strings. -/
theorem getTypedValue_ordering (t1 t2 v1 v2 : Nat)
    (ht1 : t1 < 16 ^ 8) (ht2 : t2 < 16 ^ 8)
    (hv1 : v1 < 16 ^ 24) (hv2 : v2 < 16 ^ 24) :
    (t1 = t2 → v1 < v2 →
      List.Lex (· < ·) (getTypedValue t1 v1) (getTypedValue t2 v2))
    ∧ (t1 < t2 →
      List.Lex (· < ·) (getTypedValue t1 v1) (getTypedValue t2 v2)) := by
  rw [getTypedValue_eq hv1, getTypedValue_eq hv2]
  have hb1 : t1 * 16 ^ 24 + v1 < 16 ^ 32 := by
    have : (t1 + 1) * 16 ^ 24 ≤ 16 ^ 8 * 16 ^ 24 :=
      Nat.mul_le_mul_right _ (by omega)
    calc t1 * 16 ^ 24 + v1 < (t1 + 1) * 16 ^ 24 := by nlinarith
    _ ≤ 16 ^ 8 * 16 ^ 24 := this
    _ = 16 ^ 32 := by norm_num
  have hb2 : t2 * 16 ^ 24 + v2 < 16 ^ 32 := by
    have : (t2 + 1) * 16 ^ 24 ≤ 16 ^ 8 * 16 ^ 24 :=
      Nat.mul_le_mul_right _ (by omega)
    calc t2 * 16 ^ 24 + v2 < (t2 + 1) * 16 ^ 24 := by nlinarith
    _ ≤ 16 ^ 8 * 16 ^ 24 := this
    _ = 16 ^ 32 := by norm_num
  have hlen1 : (padHex 32 (t1 * 16 ^ 24 + v1)).length = 32 :=
    padHex_length (hexDigits_length_le (by norm_num) hb1)
  have hlen2 : (padHex 32 (t2 * 16 ^ 24 + v2)).length = 32 :=
    padHex_length (hexDigits_length_le (by norm_num) hb2)
  have hlex := lex_iff_fromBE (padHex 32 (t1 * 16 ^ 24 + v1))
    (padHex 32 (t2 * 16 ^ 24 + v2)) (by rw [hlen1, hlen2])
    (padHex_digit_lt _ _) (padHex_digit_lt _ _)
  rw [padHex_fromBE, padHex_fromBE] at hlex
  constructor
  · intro ht hv
    subst ht
    exact hlex.mpr (by omega)
  · intro ht
    refine hlex.mpr ?_
    have : (t1 + 1) * 16 ^ 24 ≤ t2 * 16 ^ 24 :=
      Nat.mul_le_mul_right _ (by omega)
    nlinarith

/-- **C8 witness.** The amended ordering at concrete in-range inputs. -/
theorem getTypedValue_ordering_witness :
    List.Lex (· < ·) (getTypedValue 3 5) (getTypedValue 3 7)
    ∧ List.Lex (· < ·) (getTypedValue 3 5) (getTypedValue 4 9) :=
  ⟨(getTypedValue_ordering 3 3 5 7 (by norm_num) (by norm_num)
      (by norm_num) (by norm_num)).1 rfl (by norm_num),
    (getTypedValue_ordering 3 4 5 9 (by norm_num) (by norm_num)
      (by norm_num) (by norm_num)).2 (by norm_num)⟩

end ChainDB

/-! ## Coin selection (`SnapshotManager.pickElements`) -/

namespace SnapshotMgr

/-- An `UntypedRange`: token, start, end, owner. -/
structure URange where
  token : Int
  start : Int
  end' : Int
  owner : String
deriving DecidableEq, Repr

/-- The sort inside `pickElements`: stable, descending by size
(comparator `b.end.sub(b.start).sub(a.end.sub(a.start)).toNumber()`). -/
def sortBySizeDesc (l : List URange) : List URange :=
  sSort (fun a b => b.end' - b.start ≤ a.end' - a.start) l

/-- The final sort of the picked list: by token, ties by start. -/
def leTS (a b : URange) : Bool :=
  if a.token = b.token then a.start ≤ b.start else a.token ≤ b.token

/-- The error thrown when the available ranges cannot cover the amount. -/
def insufficientMsg : String :=
  "Address does not have enough balance to cover the amount."

/-- The `while (amount.gtn(0))` loop of `pickElements`.  `available.pop()`
takes the *last* element of the descending-sorted array, i.e. the smallest
remaining range; the loop is modelled as recursion over the reversed
(ascending) list.  A range no larger than the remaining amount is consumed
whole; otherwise a prefix of exactly the remaining amount is taken and the
loop stops. -/
def pickLoop : List URange → Int → Except String (List URange)
  | [], amount => if amount ≤ 0 then .ok [] else .error insufficientMsg
  | smallest :: rest, amount =>
    if amount ≤ 0 then .ok []
    else if smallest.end' - smallest.start ≤ amount then
      match pickLoop rest (amount - (smallest.end' - smallest.start)) with
      | .ok l => .ok (smallest :: l)
      | .error e => .error e
    else .ok [{ smallest with end' := smallest.start + amount }]

/-- The order in which `pickElements` consumes the matching ranges:
filter by token, sort descending by size, pop from the end. -/
def consumptionOrder (arr : List URange) (token : Int) : List URange :=
  (sortBySizeDesc (arr.filter (fun i => i.token = token))).reverse

/-- `pickElements(arr, token, amount)`: run the selection loop over the
matching ranges and sort the picked list by `(token, start)`. -/
def pickElements (arr : List URange) (token amount : Int) :
    Except String (List URange) :=
  match pickLoop (consumptionOrder arr token) amount with
  | .ok picked => .ok (sSort leTS picked)
  | .error e => .error e

/-- Total size of a list of ranges. -/
def sumSizes (l : List URange) : Int := (l.map (fun r => r.end' - r.start)).sum

theorem pickLoop_ok_iff :
    ∀ (l : List URange), (∀ r ∈ l, 0 < r.end' - r.start) →
      ∀ a : Int, (∃ out, pickLoop l a = .ok out) ↔ a ≤ sumSizes l := by
  intro l
  induction l with
  | nil =>
    intro _ a
    unfold pickLoop sumSizes
    by_cases ha : a ≤ 0
    · rw [if_pos ha]
      simpa [sumSizes] using ha
    · rw [if_neg ha]
      constructor
      · rintro ⟨out, hout⟩
        simp at hout
      · intro h
        simp [sumSizes] at h
        omega
  | cons s rest ih =>
    intro hsz a
    have hs : 0 < s.end' - s.start := hsz s (List.mem_cons_self s rest)
    have hrest : ∀ r ∈ rest, 0 < r.end' - r.start :=
      fun r hr => hsz r (List.mem_cons_of_mem s hr)
    have hsum : 0 ≤ sumSizes rest := by
      unfold sumSizes
      refine List.sum_nonneg ?_
      intro x hx
      obtain ⟨r, hr, hrx⟩ := List.mem_map.mp hx
      have := hrest r hr
      omega
    have hcons : sumSizes (s :: rest) = (s.end' - s.start) + sumSizes rest := by
      unfold sumSizes
      simp
    unfold pickLoop
    by_cases ha : a ≤ 0
    · rw [if_pos ha]
      constructor
      · intro _; omega
      · intro _; exact ⟨[], rfl⟩
    · rw [if_neg ha]
      by_cases hle : s.end' - s.start ≤ a
      · rw [if_pos hle]
        have := ih hrest (a - (s.end' - s.start))
        constructor
        · rintro ⟨out, hout⟩
          cases hrec : pickLoop rest (a - (s.end' - s.start)) with
          | error e => rw [hrec] at hout; simp at hout
          | ok l =>
            have : a - (s.end' - s.start) ≤ sumSizes rest := this.mp ⟨l, hrec⟩
            omega
        · intro h
          obtain ⟨l, hl⟩ := this.mpr (by omega)
          exact ⟨s :: l, by rw [hl]⟩
      · rw [if_neg hle]
        constructor
        · intro _; omega
        · intro _; exact ⟨_, rfl⟩

theorem pickLoop_error_msg :
    ∀ (l : List URange) (a : Int) (e : String),
      pickLoop l a = .error e → e = insufficientMsg := by
  intro l
  induction l with
  | nil =>
    intro a e h
    unfold pickLoop at h
    by_cases ha : a ≤ 0
    · rw [if_pos ha] at h; simp at h
    · rw [if_neg ha] at h
      simpa using h.symm
  | cons s rest ih =>
    intro a e h
    unfold pickLoop at h
    by_cases ha : a ≤ 0
    · rw [if_pos ha] at h; simp at h
    · rw [if_neg ha] at h
      by_cases hle : s.end' - s.start ≤ a
      · rw [if_pos hle] at h
        cases hrec : pickLoop rest (a - (s.end' - s.start)) with
        | error e' =>
          rw [hrec] at h
          simp at h
          rw [← h]
          exact ih _ e' hrec
        | ok l => rw [hrec] at h; simp at h
      · rw [if_neg hle] at h; simp at h

theorem leTS_total (a b : URange) : leTS a b = true ∨ leTS b a = true := by
  unfold leTS
  by_cases h : a.token = b.token
  · simp [h]
    omega
  · simp [h, Ne.symm h]
    omega

theorem leTS_trans (a b c : URange) (h1 : leTS a b = true) (h2 : leTS b c = true) :
    leTS a c = true := by
  unfold leTS at h1 h2 ⊢
  split_ifs at h1 h2 ⊢ <;> simp_all <;> omega

theorem sizeDesc_total (a b : URange) :
    (b.end' - b.start ≤ a.end' - a.start : Bool) = true
      ∨ (a.end' - a.start ≤ b.end' - b.start : Bool) = true := by
  simp
  omega

/-- The consumption order is ascending by size: each range consumed is a
smallest remaining one. -/
theorem consumptionOrder_sorted (arr : List URange) (token : Int) :
    (consumptionOrder arr token).Pairwise
      (fun a b => a.end' - a.start ≤ b.end' - b.start) := by
  unfold consumptionOrder sortBySizeDesc
  rw [List.pairwise_reverse]
  have := sSort_pairwise (fun a b : URange => b.end' - b.start ≤ a.end' - a.start)
    (fun a b => by simp; omega)
    (fun a b c h1 h2 => by simp at *; omega)
    (arr.filter (fun i => i.token = token))
  refine this.imp ?_
  intro a b h
  simpa using h

theorem consumptionOrder_perm (arr : List URange) (token : Int) :
    (consumptionOrder arr token).Perm (arr.filter (fun i => i.token = token)) := by
  unfold consumptionOrder sortBySizeDesc
  exact (List.reverse_perm _).trans (sSort_perm _ _)

/-- **C9.** `pickElements(arr, token, amount)` over ranges with positive
size: when `amount = 0` it returns `[]`; it fails — always with the
insufficient-balance error — exactly when the total size of the matching
ranges cannot cover the amount; on success the picked ranges are sorted by
`(token, start)`; and the loop consumes the matching ranges in ascending
size order (each consumed range is a smallest remaining one), taking a
range entirely when its size is at most the remaining amount and otherwise
a prefix of exactly the remaining amount. -/
theorem pickElements_spec (arr : List URange) (token amount : Int)
    (hval : ∀ r ∈ arr, r.start < r.end') :
    (amount = 0 → pickElements arr token amount = .ok [])
    ∧ ((∃ l, pickElements arr token amount = .ok l)
        ↔ amount ≤ sumSizes (arr.filter (fun r => r.token = token)))
    ∧ (∀ e, pickElements arr token amount = .error e → e = insufficientMsg)
    ∧ (∀ l, pickElements arr token amount = .ok l →
        l.Pairwise (fun a b => leTS a b = true))
    ∧ (consumptionOrder arr token).Pairwise
        (fun a b => a.end' - a.start ≤ b.end' - b.start) := by
  have hperm := consumptionOrder_perm arr token
  have hpos : ∀ r ∈ consumptionOrder arr token, 0 < r.end' - r.start := by
    intro r hr
    have hr' := hperm.mem_iff.mp hr
    have := hval r (List.mem_of_mem_filter hr')
    omega
  have hsum : sumSizes (consumptionOrder arr token)
      = sumSizes (arr.filter (fun r => r.token = token)) := by
    unfold sumSizes
    exact (hperm.map (fun r => r.end' - r.start)).sum_eq
  refine ⟨?_, ?_, ?_, ?_, consumptionOrder_sorted arr token⟩
  · intro h
    subst h
    unfold pickElements
    have : pickLoop (consumptionOrder arr token) 0 = .ok [] := by
      cases h : consumptionOrder arr token <;> simp [pickLoop]
    rw [this]
    rfl
  · rw [← hsum]
    have hiff := pickLoop_ok_iff (consumptionOrder arr token) hpos amount
    unfold pickElements
    constructor
    · rintro ⟨l, hl⟩
      cases h : pickLoop (consumptionOrder arr token) amount with
      | error e => rw [h] at hl; simp at hl
      | ok picked => exact hiff.mp ⟨picked, h⟩
    · intro h
      obtain ⟨out, hout⟩ := hiff.mpr h
      exact ⟨sSort leTS out, by rw [hout]⟩
  · intro e he
    unfold pickElements at he
    cases h : pickLoop (consumptionOrder arr token) amount with
    | error e' =>
      rw [h] at he
      simp at he
      rw [← he]
      exact pickLoop_error_msg _ _ _ h
    | ok picked => rw [h] at he; simp at he
  · intro l hl
    unfold pickElements at hl
    cases h : pickLoop (consumptionOrder arr token) amount with
    | error e => rw [h] at hl; simp at hl
    | ok picked =>
      rw [h] at hl
      simp at hl
      rw [← hl]
      exact sSort_pairwise leTS leTS_total leTS_trans picked

/-- **C9 witness.** One matching range `[0, 5)`, selecting 3 coins. -/
theorem pickElements_spec_witness :
    ((3 : Int) = 0 → pickElements [⟨0, 0, 5, "a"⟩] 0 3 = .ok [])
    ∧ ((∃ l, pickElements [⟨0, 0, 5, "a"⟩] 0 3 = .ok l)
        ↔ (3 : Int) ≤ sumSizes ([⟨0, 0, 5, "a"⟩].filter (fun r => r.token = 0)))
    ∧ (∀ e, pickElements [⟨0, 0, 5, "a"⟩] 0 3 = .error e → e = insufficientMsg)
    ∧ (∀ l, pickElements [⟨0, 0, 5, "a"⟩] 0 3 = .ok l →
        l.Pairwise (fun a b => leTS a b = true))
    ∧ (consumptionOrder [⟨0, 0, 5, "a"⟩] 0).Pairwise
        (fun a b => a.end' - a.start ≤ b.end' - b.start) :=
  pickElements_spec [⟨0, 0, 5, "a"⟩] 0 3 (by decide)

end SnapshotMgr

/-! ## ProofService (`src/services/chain/proof-service.ts`) and
`ChainService.addTransaction` (`src/services/chain/chain-service.ts`)

`applyProof` validates every deposit with the anchor-chain contract's
`depositValid`, then every transaction's inclusion proof, and only then
assembles the post-state (on a *fresh* `SnapshotManager`, never on head
state).  The external collaborators — the anchor contract, the sum-tree
library, and the predicate evaluator inside the state assembly — are
parameters of the embedding; in the source the assembly additionally
passes `StateObject`s into `SnapshotManager` methods declared for
`Snapshot`s (e.g. `addSnapshot` reads a `valid` accessor `StateObject`
does not define), so the assembly is kept as an explicit function
parameter and the theorem below is proved for *every* assembly
behaviour. -/

namespace ProofSvc

/-- `StateObject` (`src/services/models/chain/state-object.ts`). -/
structure StateObject where
  start : Int
  end' : Int
  block : Int
  predicate : String
  state : String
  implicit : Bool := false
  implicitStart : Option Int := none
  implicitEnd : Option Int := none
deriving DecidableEq, Repr

/-- `Transaction` (`src/services/models/chain/transaction.ts`). -/
structure PTransaction where
  block : Int
  inclusionProof : List String
  witness : String
  newState : StateObject
deriving DecidableEq, Repr

/-- `TransactionProof`: the deposits and transactions backing a target
transaction. -/
structure TransactionProof where
  deposits : List StateObject
  transactions : List PTransaction
deriving DecidableEq, Repr

/-- The deposit-validation loop at the top of `applyProof`: each deposit
is checked with the anchor contract's `depositValid`; the first failure
throws `Invalid deposit`. -/
def checkDeposits (depositValid : StateObject → Bool) :
    List StateObject → Except String Unit
  | [] => .ok ()
  | d :: ds =>
    if depositValid d then checkDeposits depositValid ds
    else .error "Invalid deposit"

/-- The inclusion-proof loop of `applyProof` / `checkInclusionProof`:
fetch the block root (`null` → throw), pad it, derive the implicit bounds
via the sum-tree library (parameter `bounds`) and assign them onto
`newState`, then check the inclusion proof (parameter `inclusionValid`);
a failed check throws `Invalid transaction`.  Returns the transactions
with their implicit bounds assigned. -/
def checkTransactions (getBlockHeader : Int → Option String)
    (bounds : PTransaction → Int × Int)
    (inclusionValid : PTransaction → String → Bool) :
    List PTransaction → Except String (List PTransaction)
  | [] => .ok []
  | t :: ts =>
    match getBlockHeader t.block with
    | none => .error ("Received transaction for non-existent block #"
        ++ toString t.block)
    | some root =>
      let b := bounds t
      let t' := { t with newState :=
        { t.newState with implicitStart := some b.1, implicitEnd := some b.2 } }
      if inclusionValid t' (root ++ "ffffffffffffffffffffffffffffffff") then
        match checkTransactions getBlockHeader bounds inclusionValid ts with
        | .ok ts' => .ok (t' :: ts')
        | .error e => .error e
      else .error "Invalid transaction"

/-- The final containment check of `applyProof`
(`state.snapshots.some((snapshot) => snapshot.contains(tx.newState))`);
`contains` compares `start`, `end` and `block` (the `owner` comparison of
`Snapshot.contains` is between two absent fields in this call and always
passes). -/
def containsSO (a b : StateObject) : Bool :=
  a.start ≤ b.start && b.end' ≤ a.end' && a.block = b.block

/-- `ProofService.applyProof(tx, proof)`: validate deposits, validate
inclusion proofs, assemble the post-state on a fresh manager (`assemble`),
and require the post-state to contain the target's new state. -/
def applyProof (depositValid : StateObject → Bool)
    (getBlockHeader : Int → Option String)
    (bounds : PTransaction → Int × Int)
    (inclusionValid : PTransaction → String → Bool)
    (assemble : List StateObject → List PTransaction →
      Except String (List StateObject))
    (tx : PTransaction) (proof : TransactionProof) :
    Except String (List StateObject) :=
  match checkDeposits depositValid proof.deposits with
  | .error e => .error e
  | .ok _ =>
    match checkTransactions getBlockHeader bounds inclusionValid
        proof.transactions with
    | .error e => .error e
    | .ok ts =>
      match assemble proof.deposits ts with
      | .error e => .error e
      | .ok state =>
        if state.any (fun s => containsSO s tx.newState) then .ok state
        else .error "Invalid state transition"

/-- `ChainService.addTransaction`: verify the proof (`checkProof`, an
external proof-service call whose outcome is the `checkProofOk`
parameter); on failure throw `Invalid transaction proof` *before* loading
or touching head state; only on success compute the temporary post-state
manager and merge it into head state.  Returns the persisted head state
and the error, if any. -/
def addTransaction (head : List SnapshotMgr.Snapshot) (checkProofOk : Bool)
    (tempState : List SnapshotMgr.Snapshot) :
    List SnapshotMgr.Snapshot × Option String :=
  if checkProofOk then (SnapshotMgr.mergeSM head tempState, none)
  else (head, some "Invalid transaction proof")

theorem checkDeposits_error (depositValid : StateObject → Bool) :
    ∀ ds : List StateObject, (∃ d ∈ ds, depositValid d = false) →
      checkDeposits depositValid ds = .error "Invalid deposit" := by
  intro ds
  induction ds with
  | nil => rintro ⟨d, hd, _⟩; exact absurd hd (List.not_mem_nil d)
  | cons d ds ih =>
    rintro ⟨d', hd', hval⟩
    unfold checkDeposits
    by_cases h : depositValid d = true
    · rw [if_pos h]
      refine ih ⟨d', ?_, hval⟩
      rcases List.mem_cons.mp hd' with h' | h'
      · subst h'; rw [h] at hval; cases hval
      · exact h'
    · rw [if_neg h]

/-- **C4.** If `applyProof` is called with a proof containing a deposit
for which `depositValid` returns `false`, it fails with the
`Invalid deposit` error — for every behaviour of the block-header store,
the sum-tree library, and the post-state assembly, since the deposit gate
runs first — and `addTransaction` leaves head state unchanged whenever
the proof check fails: the merge into head state happens only after the
whole proof check succeeds. -/
theorem applyProof_invalid_deposit
    (depositValid : StateObject → Bool) (getBlockHeader : Int → Option String)
    (bounds : PTransaction → Int × Int)
    (inclusionValid : PTransaction → String → Bool)
    (assemble : List StateObject → List PTransaction →
      Except String (List StateObject))
    (tx : PTransaction) (proof : TransactionProof)
    (hd : ∃ d ∈ proof.deposits, depositValid d = false) :
    applyProof depositValid getBlockHeader bounds inclusionValid assemble
        tx proof = .error "Invalid deposit"
    ∧ (∀ (head temp : List SnapshotMgr.Snapshot),
        addTransaction head false temp = (head, some "Invalid transaction proof")) := by
  constructor
  · unfold applyProof
    rw [checkDeposits_error depositValid proof.deposits hd]
  · intro head temp
    rfl

/-- **C4 witness.** A one-deposit proof whose deposit the anchor contract
rejects. -/
theorem applyProof_invalid_deposit_witness :
    applyProof (fun _ => false) (fun _ => none) (fun _ => (0, 0))
        (fun _ _ => true) (fun _ _ => .ok [])
        ⟨1, [], "w", ⟨0, 1, 1, "p", "s", false, none, none⟩⟩
        ⟨[⟨0, 1, 0, "p", "s", false, none, none⟩], []⟩ = .error "Invalid deposit"
    ∧ (∀ (head temp : List SnapshotMgr.Snapshot),
        addTransaction head false temp = (head, some "Invalid transaction proof")) :=
  applyProof_invalid_deposit (fun _ => false) (fun _ => none) (fun _ => (0, 0))
    (fun _ _ => true) (fun _ _ => .ok [])
    ⟨1, [], "w", ⟨0, 1, 1, "p", "s", false, none, none⟩⟩
    ⟨[⟨0, 1, 0, "p", "s", false, none, none⟩], []⟩
    ⟨⟨0, 1, 0, "p", "s", false, none, none⟩, by simp, rfl⟩

end ProofSvc

/-! ## EventWatcher (`checkEvent`/`getUniqueEvents`/`emitEvents`) with
the SyncDB seen-set (`src/services/db/interfaces/sync-db.ts`)

Per polling iteration and event name, `checkEvent` skips when the first
unsynced block lies beyond the last final block; otherwise it fetches the
events of `[lastLogged+1, lastFinalBlock]`, filters out those whose
identity (`hash = sha3(transactionHash + logIndex)`) is already marked in
the SyncDB (`getUniqueEvents` via `hasEvent`), marks the survivors
(`addEvents`, skipped entirely when there are none) and delivers the
survivor batch to every listener, then records `lastFinalBlock` as the
last logged block.  The embedding threads the SyncDB seen-set, the
per-name cursor, and the cumulative delivery log; the anchor node's
responses are the per-iteration `fetched` inputs. -/

namespace EventWatcher

/-- An anchor-chain event: its identity hash and block number. -/
structure EEvent where
  hash : String
  block : Int
deriving DecidableEq, Repr

/-- Watcher-relevant state: the SyncDB seen-set (`event:{hash}` keys),
the per-name cursor (`lastlogged`), and the cumulative log of events
delivered to listeners. -/
structure WState where
  seen : List String
  lastLogged : Int
  delivered : List EEvent
deriving DecidableEq, Repr

/-- `getUniqueEvents`: drop events already marked in the SyncDB. -/
def getUniqueEvents (seen : List String) (events : List EEvent) : List EEvent :=
  events.filter (fun e => !(seen.contains e.hash))

/-- `emitEvents`: do nothing on an empty batch; otherwise mark the batch
as seen (`addEvents`) and deliver it to the listeners. -/
def emitEvents (s : WState) (events : List EEvent) : WState :=
  if events.isEmpty then s
  else { s with
    seen := s.seen ++ events.map (fun e => e.hash),
    delivered := s.delivered ++ events }

/-- `checkEvent` for one polling iteration: skip when already past the
final head, else filter, emit, and advance the cursor. -/
def checkEvent (s : WState) (lastFinalBlock : Int) (fetched : List EEvent) :
    WState :=
  if s.lastLogged + 1 > lastFinalBlock then s
  else
    let unique := getUniqueEvents s.seen fetched
    let s' := emitEvents s unique
    { s' with lastLogged := lastFinalBlock }

/-- A run of the polling loop: one `(lastFinalBlock, fetched)` pair per
iteration. -/
def runWatcher (s : WState) (inputs : List (Int × List EEvent)) : WState :=
  inputs.foldl (fun st p => checkEvent st p.1 p.2) s

/-- The delivery-log invariant of the polling loop: the seen-set is the
initial seen-set extended by exactly the delivered identities, delivered
identities are pairwise distinct and new, the log and the seen-set only
grow, and every event fetched in a processed iteration ends up marked. -/
theorem runWatcher_inv (s0seen : List String) :
    ∀ (inputs : List (Int × List EEvent)) (s : WState),
      (∀ p ∈ inputs, (p.2.map (fun ev => ev.hash)).Nodup) →
      s.seen = s0seen ++ s.delivered.map (fun ev => ev.hash) →
      (s.delivered.map (fun ev => ev.hash)).Nodup →
      (∀ h ∈ s.delivered.map (fun ev => ev.hash), h ∉ s0seen) →
      List.Chain (· < ·) s.lastLogged (inputs.map Prod.fst) →
      (runWatcher s inputs).seen
          = s0seen ++ (runWatcher s inputs).delivered.map (fun ev => ev.hash)
      ∧ ((runWatcher s inputs).delivered.map (fun ev => ev.hash)).Nodup
      ∧ (∀ h ∈ (runWatcher s inputs).delivered.map (fun ev => ev.hash),
          h ∉ s0seen)
      ∧ (∀ ev ∈ s.delivered, ev ∈ (runWatcher s inputs).delivered)
      ∧ (∀ h ∈ s.seen, h ∈ (runWatcher s inputs).seen)
      ∧ (∀ p ∈ inputs, ∀ ev ∈ p.2, ev.hash ∈ (runWatcher s inputs).seen) := by
  intro inputs
  induction inputs with
  | nil =>
    intro s _ hseen hnd hnew _
    refine ⟨hseen, hnd, hnew, fun ev hev => hev, fun h hh => hh, ?_⟩
    intro p hp
    exact absurd hp (List.not_mem_nil p)
  | cons q rest ih =>
    intro s hbatch hseen hnd hnew hchain
    obtain ⟨fb, evs⟩ := q
    simp only [List.map_cons] at hchain
    rcases hchain with _ | ⟨hlt, hchain⟩
    have hproc : ¬ (s.lastLogged + 1 > fb) := by omega
    have hstep : runWatcher s ((fb, evs) :: rest)
        = runWatcher (checkEvent s fb evs) rest := by
      unfold runWatcher
      simp [List.foldl_cons]
    rw [hstep]
    set unique := getUniqueEvents s.seen evs with hunique
    have hufilter : ∀ ev, ev ∈ unique ↔ ev ∈ evs ∧ ev.hash ∉ s.seen := by
      intro ev
      rw [hunique]
      unfold getUniqueEvents
      simp [List.mem_filter]
    by_cases hemp : unique.isEmpty
    · have hck : checkEvent s fb evs = { s with lastLogged := fb } := by
        unfold checkEvent
        rw [if_neg hproc]
        simp only [← hunique]
        unfold emitEvents
        rw [if_pos hemp]
      rw [hck]
      obtain ⟨i1, i2, i3, i4, i5, i6⟩ := ih { s with lastLogged := fb }
        (fun p hp => hbatch p (List.mem_cons_of_mem _ hp)) hseen hnd hnew
        (by simpa using hchain)
      refine ⟨i1, i2, i3, i4, i5, ?_⟩
      intro p hp ev hev
      rcases List.mem_cons.mp hp with hp | hp
      · -- the processed batch: everything fetched was already marked
        have : ev.hash ∈ s.seen := by
          by_contra hno
          have : ev ∈ unique := (hufilter ev).mpr ⟨by rw [hp] at hev; exact hev, hno⟩
          rw [List.isEmpty_iff] at hemp
          rw [hemp] at this
          exact absurd this (List.not_mem_nil ev)
        exact i5 ev.hash this
      · exact i6 p hp ev hev
    · have hck : checkEvent s fb evs =
          { seen := s.seen ++ unique.map (fun ev => ev.hash),
            lastLogged := fb,
            delivered := s.delivered ++ unique } := by
        unfold checkEvent
        rw [if_neg hproc]
        simp only [← hunique]
        unfold emitEvents
        rw [if_neg hemp]
      rw [hck]
      have hnd_u : (unique.map (fun ev => ev.hash)).Nodup := by
        have hsub : unique.Sublist evs := by
          rw [hunique]; unfold getUniqueEvents; exact List.filter_sublist evs
        exact (hbatch (fb, evs) (List.mem_cons_self _ _)).sublist (hsub.map _)
      have hnew_u : ∀ h ∈ unique.map (fun ev => ev.hash), h ∉ s.seen := by
        intro h hh
        obtain ⟨ev, hev, hevh⟩ := List.mem_map.mp hh
        rw [← hevh]
        exact ((hufilter ev).mp hev).2
      have hseen' : s.seen ++ unique.map (fun ev => ev.hash)
          = s0seen ++ (s.delivered ++ unique).map (fun ev => ev.hash) := by
        rw [hseen, List.map_append, List.append_assoc]
      have hnd' : ((s.delivered ++ unique).map (fun ev => ev.hash)).Nodup := by
        rw [List.map_append, List.nodup_append]
        refine ⟨hnd, hnd_u, ?_⟩
        intro h hh hh'
        have := hnew_u h hh'
        rw [hseen] at this
        exact this (List.mem_append.mpr (Or.inr hh))
      have hnew' : ∀ h ∈ (s.delivered ++ unique).map (fun ev => ev.hash),
          h ∉ s0seen := by
        intro h hh
        rw [List.map_append] at hh
        rcases List.mem_append.mp hh with hh | hh
        · exact hnew h hh
        · intro hs0
          exact hnew_u h hh (by rw [hseen]; exact List.mem_append.mpr (Or.inl hs0))
      obtain ⟨i1, i2, i3, i4, i5, i6⟩ := ih
        { seen := s.seen ++ unique.map (fun ev => ev.hash),
          lastLogged := fb,
          delivered := s.delivered ++ unique }
        (fun p hp => hbatch p (List.mem_cons_of_mem _ hp)) hseen' hnd' hnew'
        (by simpa using hchain)
      refine ⟨i1, i2, i3, ?_, ?_, ?_⟩
      · intro ev hev
        exact i4 ev (List.mem_append.mpr (Or.inl hev))
      · intro h hh
        exact i5 h (List.mem_append.mpr (Or.inl hh))
      · intro p hp ev hev
        rcases List.mem_cons.mp hp with hp | hp
        · by_cases hsn : ev.hash ∈ s.seen
          · exact i5 ev.hash (List.mem_append.mpr (Or.inl hsn))
          · have : ev ∈ unique := (hufilter ev).mpr ⟨by rw [hp] at hev; exact hev, hsn⟩
            exact i5 ev.hash (List.mem_append.mpr (Or.inr
              (List.mem_map.mpr ⟨ev, this, rfl⟩)))
        · exact i6 p hp ev hev

/-- **C7.** Exactly-once delivery of anchor events.  Over any run of the
polling loop in which each fetched batch has pairwise-distinct event
identities (a single `getPastEvents` response never repeats a log) and
the final heads are strictly increasing (so no iteration is skipped):
every event is delivered at most once; an event whose identity is already
marked seen in the SyncDB is filtered out and never delivered; and an
event fetched in some iteration whose identity was not initially seen is
delivered exactly once — `hasEvent` becomes `true` for it — and stays
marked. -/
theorem eventWatcher_exactly_once (s0 : WState)
    (inputs : List (Int × List EEvent)) (e : EEvent)
    (hd0 : s0.delivered = [])
    (hnd : ∀ p ∈ inputs, (p.2.map (fun ev => ev.hash)).Nodup)
    (hchain : List.Chain (· < ·) s0.lastLogged (inputs.map Prod.fst)) :
    ((runWatcher s0 inputs).delivered.map (fun ev => ev.hash)).count e.hash ≤ 1
    ∧ (e.hash ∈ s0.seen →
        ((runWatcher s0 inputs).delivered.map (fun ev => ev.hash)).count e.hash = 0)
    ∧ ((∃ p ∈ inputs, e ∈ p.2) → e.hash ∉ s0.seen →
        ((runWatcher s0 inputs).delivered.map (fun ev => ev.hash)).count e.hash = 1
        ∧ e.hash ∈ (runWatcher s0 inputs).seen) := by
  obtain ⟨i1, i2, i3, _, _, i6⟩ := runWatcher_inv s0.seen inputs s0 hnd
    (by rw [hd0]; simp) (by rw [hd0]; simp) (by rw [hd0]; simp) hchain
  refine ⟨List.nodup_iff_count_le_one.mp i2 e.hash, ?_, ?_⟩
  · intro hs0
    exact List.count_eq_zero.mpr (fun hmem => i3 e.hash hmem hs0)
  · rintro ⟨p, hp, hep⟩ hs0
    have hseen : e.hash ∈ (runWatcher s0 inputs).seen := i6 p hp e hep
    have hmem : e.hash ∈ (runWatcher s0 inputs).delivered.map (fun ev => ev.hash) := by
      rw [i1] at hseen
      rcases List.mem_append.mp hseen with h | h
      · exact absurd h hs0
      · exact h
    refine ⟨?_, hseen⟩
    have h1 := List.count_pos_iff.mpr hmem
    have h2 := List.nodup_iff_count_le_one.mp i2 e.hash
    omega

/-- **C7 witness.** A single iteration fetching one fresh event. -/
theorem eventWatcher_exactly_once_witness :
    ((runWatcher ⟨[], -1, []⟩ [(10, [⟨"h1", 3⟩])]).delivered.map
        (fun ev => ev.hash)).count "h1" = 1
    ∧ "h1" ∈ (runWatcher ⟨[], -1, []⟩ [(10, [⟨"h1", 3⟩])]).seen :=
  (eventWatcher_exactly_once ⟨[], -1, []⟩ [(10, [⟨"h1", 3⟩])] ⟨"h1", 3⟩ rfl
      (by decide)
      (List.Chain.cons (by norm_num) List.Chain.nil)).2.2
    ⟨(10, [⟨"h1", 3⟩]), by simp, by simp⟩ (by simp)

end EventWatcher
